import Mathlib

/-!
Shallow embedding of the mini-manim animation scheduling and interpolation
engine (`mini_manim/core/timeline.py`, `mini_manim/core/animation.py`,
`mini_manim/animations/{move,scale,rotate,fade}.py`).

Python floats are embedded as rationals (`ℚ`); Python `int` as `ℤ`.
The abstract `Animation` base class (capture/evaluate control flow) is absent
from the repository's `core/animation.py` (which holds only the builder), so
those operations are modelled from the spec, as marked on each definition.
-/

/-- Attribute state of a target object (spec section 3: position 2D vector,
rotation scalar, scale factor scalar, opacity scalar). -/
structure MState where
  position : ℚ × ℚ
  rotation : ℚ
  scale_factor : ℚ
  opacity : ℚ
deriving DecidableEq, Repr

/-- An attribute snapshot: a mapping from attribute name to value, with
`none` for an absent key (the Python dicts hold only the governed keys). -/
structure Snapshot where
  position : Option (ℚ × ℚ)
  rotation : Option ℚ
  scale_factor : Option ℚ
  opacity : Option ℚ
deriving DecidableEq, Repr

/-- Snapshot `{'position': p}`. -/
def posSnap (p : ℚ × ℚ) : Snapshot := ⟨some p, none, none, none⟩

/-- Snapshot `{'rotation': r}`. -/
def rotSnap (r : ℚ) : Snapshot := ⟨none, some r, none, none⟩

/-- Snapshot `{'scale_factor': c}`. -/
def scaleSnap (c : ℚ) : Snapshot := ⟨none, none, some c, none⟩

/-- Snapshot `{'opacity': o}`. -/
def opSnap (o : ℚ) : Snapshot := ⟨none, none, none, some o⟩

/-- The concrete animation kinds with their construction parameters
(`Move.target`, `Scale.target_scale`, `Rotate.angle`; fades take none). -/
inductive AnimKind where
  | move (target : ℚ × ℚ)
  | scale (target_scale : ℚ)
  | rotate (angle : ℚ)
  | fadeIn
  | fadeOut
deriving DecidableEq, Repr

/-- Whether the kind is one of the two fades. -/
def AnimKind.isFade : AnimKind → Bool
  | .fadeIn => true
  | .fadeOut => true
  | _ => false

/-- Modelled from the spec: the abstract `Animation` base class is missing from
`core/animation.py`; spec section 4.2 `capture_initial()` "reads the current
state of the governed attribute(s) from the target and stores it as the
initial snapshot". Each kind governs the attribute its `_interpolate` writes. -/
def captureInitial : AnimKind → MState → Snapshot
  | .move _, m => posSnap m.position
  | .scale _, m => scaleSnap m.scale_factor
  | .rotate _, m => rotSnap m.rotation
  | .fadeIn, m => opSnap m.opacity
  | .fadeOut, m => opSnap m.opacity

/-- Per-kind `_capture_final_state` from `animations/{move,scale,rotate,fade}.py`;
a missing dict key (Python `KeyError`) is rendered as `none`. -/
def captureFinalState : AnimKind → Snapshot → Option Snapshot
  | .move tgt, _ => some (posSnap tgt)
  | .scale fac, init => init.scale_factor.map (fun c0 => scaleSnap (c0 * fac))
  | .rotate ang, init => init.rotation.map (fun r0 => rotSnap (r0 + ang))
  | .fadeIn, _ => some (opSnap 1)
  | .fadeOut, _ => some (opSnap 0)

/-- Numpy-style componentwise `start_pos + alpha * (end_pos - start_pos)`. -/
def vlerp (s e : ℚ × ℚ) (alpha : ℚ) : ℚ × ℚ :=
  (s.1 + alpha * (e.1 - s.1), s.2 + alpha * (e.2 - s.2))

/-- Per-kind `_interpolate` from `animations/{move,scale,rotate,fade}.py`:
writes the interpolated attribute onto the target state. Move, Scale and
Rotate read both snapshots; FadeIn writes `alpha` and FadeOut writes
`1 - alpha` directly, ignoring the snapshots. -/
def interpolate : AnimKind → Snapshot → Snapshot → ℚ → MState → Option MState
  | .move _, init, fin, alpha, m =>
    match init.position, fin.position with
    | some s, some e => some { m with position := vlerp s e alpha }
    | _, _ => none
  | .scale _, init, fin, alpha, m =>
    match init.scale_factor, fin.scale_factor with
    | some s, some e => some { m with scale_factor := s + alpha * (e - s) }
    | _, _ => none
  | .rotate _, init, fin, alpha, m =>
    match init.rotation, fin.rotation with
    | some s, some e => some { m with rotation := s + alpha * (e - s) }
    | _, _ => none
  | .fadeIn, _, _, alpha, m => some { m with opacity := alpha }
  | .fadeOut, _, _, alpha, m => some { m with opacity := 1 - alpha }

/-- Modelled from the spec: the abstract `Animation.evaluate` is missing from
`core/animation.py`; spec section 4.2: "applies the easing function to obtain
eased progress", then interpolates with the eased progress. -/
def evaluate (k : AnimKind) (easing : ℚ → ℚ) (init fin : Snapshot)
    (progress : ℚ) (m : MState) : Option MState :=
  interpolate k init fin (easing progress) m

/-- Whether the state agrees with every attribute value the snapshot holds. -/
def agrees (m : MState) (s : Snapshot) : Bool :=
  (match s.position with | none => true | some p => decide (m.position = p)) &&
  (match s.rotation with | none => true | some r => decide (m.rotation = r)) &&
  (match s.scale_factor with | none => true | some c => decide (m.scale_factor = c)) &&
  (match s.opacity with | none => true | some o => decide (m.opacity = o))

/-- A pending operation queued on the fluent builder
(`core/animation.py`, `AnimationBuilder._pending_operations` entries). -/
inductive PendingOp where
  | move_to (target : ℚ × ℚ)
  | scale (factor : ℚ)
  | fade_in
  | fade_out
  | rotate (angle : ℚ)
deriving DecidableEq, Repr

/-- A concrete animation instance as the builder would have to produce it:
kind plus the shared duration (`core/animation.py`). -/
structure BuiltAnimation where
  kind : AnimKind
  duration : ℚ
deriving DecidableEq, Repr

/-- The fluent builder (`core/animation.py`, `AnimationBuilder`): a queue of
pending operations against one target object. -/
structure AnimationBuilder where
  pending_operations : List PendingOp
deriving DecidableEq, Repr

/-- `AnimationBuilder.move_to`: queue a move_to animation. -/
def AnimationBuilder.move_to (b : AnimationBuilder) (target : ℚ × ℚ) : AnimationBuilder :=
  ⟨b.pending_operations ++ [.move_to target]⟩

/-- `AnimationBuilder.scale`: queue a scale animation. -/
def AnimationBuilder.scale (b : AnimationBuilder) (factor : ℚ) : AnimationBuilder :=
  ⟨b.pending_operations ++ [.scale factor]⟩

/-- `AnimationBuilder.fade_in`: queue a fade in animation. -/
def AnimationBuilder.fade_in (b : AnimationBuilder) : AnimationBuilder :=
  ⟨b.pending_operations ++ [.fade_in]⟩

/-- `AnimationBuilder.fade_out`: queue a fade out animation. -/
def AnimationBuilder.fade_out (b : AnimationBuilder) : AnimationBuilder :=
  ⟨b.pending_operations ++ [.fade_out]⟩

/-- `AnimationBuilder.rotate`: queue a rotation animation. -/
def AnimationBuilder.rotate (b : AnimationBuilder) (angle : ℚ) : AnimationBuilder :=
  ⟨b.pending_operations ++ [.rotate angle]⟩

/-- `AnimationBuilder.build` from `core/animation.py`: the source is a stub
("Placeholder - will be implemented in later steps") that ignores the queue
and returns the empty list. -/
def AnimationBuilder.build (b : AnimationBuilder) (duration : ℚ)
    (easing : Option (ℚ → ℚ)) : List BuiltAnimation :=
  let _ := b
  let _ := duration
  let _ := easing
  []

/-- An animation as the timeline layer sees it (`core/timeline.py` reads only
`anim.duration`); `oid` models Python object identity, never inspected by the
scheduling code. -/
structure Animation where
  oid : ℕ
  duration : ℚ
deriving DecidableEq, Repr

/-- The sequential branch of `AnimationBlock.get_active_animations`: the
`for i, anim in enumerate(...)` loop, with `i` the running index and `d` the
per-animation duration. -/
def seqActive (anims : List Animation) (d time : ℚ) (i : ℕ) : List (Animation × ℚ) :=
  match anims with
  | [] => []
  | anim :: rest =>
    let anim_start := (i : ℚ) * d
    let anim_end := anim_start + d
    (if anim_start ≤ time ∧ time < anim_end then [(anim, (time - anim_start) / d)]
     else if anim_end ≤ time then [(anim, 1)]
     else []) ++ seqActive rest d time (i + 1)

/-- `AnimationBlock` from `core/timeline.py`. -/
structure AnimationBlock where
  animations : List Animation
  duration : ℚ
  sequential : Bool
  per_animation_duration : ℚ
deriving DecidableEq, Repr

/-- `AnimationBlock.__init__`: stores the list, duration and mode, and
computes the per-animation duration (`duration / len(animations)` when
sequential and nonempty, else `duration`). -/
def AnimationBlock.init (animations : List Animation) (duration : ℚ)
    (sequential : Bool) : AnimationBlock :=
  ⟨animations, duration, sequential,
    if sequential ∧ animations.length > 0 then duration / (animations.length : ℚ)
    else duration⟩

/-- `AnimationBlock.get_active_animations` from `core/timeline.py`. -/
def AnimationBlock.get_active_animations (b : AnimationBlock) (time : ℚ) :
    List (Animation × ℚ) :=
  if b.sequential then
    seqActive b.animations b.per_animation_duration time 0
  else
    b.animations.map (fun anim =>
      if time < anim.duration then (anim, time / anim.duration) else (anim, 1))

/-- `Timeline` from `core/timeline.py`: fps, `(block, start_time)` pairs and
the running total duration. -/
structure Timeline where
  fps : ℤ
  blocks : List (AnimationBlock × ℚ)
  total_duration : ℚ
deriving DecidableEq, Repr

/-- `Timeline.__init__`: empty block list, zero total duration. -/
def Timeline.init (fps : ℤ) : Timeline := ⟨fps, [], 0⟩

/-- `Timeline.add_block`: append a block starting at the current total
duration, then extend the total duration. -/
def Timeline.add_block (tl : Timeline) (animations : List Animation)
    (duration : ℚ) (sequential : Bool) : Timeline :=
  let block := AnimationBlock.init animations duration sequential
  let start_time := tl.total_duration
  ⟨tl.fps, tl.blocks ++ [(block, start_time)], tl.total_duration + duration⟩

/-- `Timeline.add_sequential`. -/
def Timeline.add_sequential (tl : Timeline) (animations : List Animation)
    (duration : ℚ) : Timeline :=
  tl.add_block animations duration true

/-- `Timeline.add_parallel`. -/
def Timeline.add_parallel (tl : Timeline) (animations : List Animation)
    (duration : ℚ) : Timeline :=
  tl.add_block animations duration false

/-- `Timeline.get_active_animations` from `core/timeline.py`: convert the
frame to time, then fold over the blocks in order, skipping unstarted blocks,
pinning fully elapsed blocks at progress 1.0 and delegating otherwise. -/
def Timeline.get_active_animations (tl : Timeline) (frame : ℤ) :
    List (Animation × ℚ) :=
  let time : ℚ := (frame : ℚ) / (tl.fps : ℚ)
  tl.blocks.foldl
    (fun active bs =>
      let block_time := time - bs.2
      if block_time < 0 then active
      else if bs.1.duration ≤ block_time then
        active ++ bs.1.animations.map (fun a => (a, 1))
      else active ++ bs.1.get_active_animations block_time)
    []

/-- Python `int()` applied to a rational: truncation toward zero. -/
def pyInt (q : ℚ) : ℤ := if 0 ≤ q then ⌊q⌋ else ⌈q⌉

/-- `Timeline.total_frames`: `int(total_duration * fps) + 1`. -/
def Timeline.total_frames (tl : Timeline) : ℤ :=
  pyInt (tl.total_duration * (tl.fps : ℚ)) + 1

/-- `Timeline.get_frame_time`: `frame / fps`. -/
def Timeline.get_frame_time (tl : Timeline) (frame : ℤ) : ℚ :=
  (frame : ℚ) / (tl.fps : ℚ)

/-- `Timeline.reset`: clear all blocks and zero the total duration. -/
def Timeline.reset (tl : Timeline) : Timeline := ⟨tl.fps, [], 0⟩

/-- The public mutating operations of `Timeline`. -/
inductive TimelineOp where
  | add_block (animations : List Animation) (duration : ℚ) (sequential : Bool)
  | add_sequential (animations : List Animation) (duration : ℚ)
  | add_parallel (animations : List Animation) (duration : ℚ)
  | reset

/-- Apply one mutating operation. -/
def Timeline.applyOp (tl : Timeline) : TimelineOp → Timeline
  | .add_block a d s => tl.add_block a d s
  | .add_sequential a d => tl.add_sequential a d
  | .add_parallel a d => tl.add_parallel a d
  | .reset => tl.reset

/-- Apply a sequence of mutating operations in order. -/
def Timeline.applyOps (tl : Timeline) (ops : List TimelineOp) : Timeline :=
  ops.foldl Timeline.applyOp tl

/-- Per-block contribution of `Timeline.get_active_animations`, written from
the spec's description (section 4.4) for comparison with the source fold:
skip an unstarted block, pin a fully elapsed block at 1.0, else delegate. -/
def timelineContribSpec (fps frame : ℤ) (bs : AnimationBlock × ℚ) :
    List (Animation × ℚ) :=
  if bs.2 > (frame : ℚ) / (fps : ℚ) then []
  else if bs.1.duration ≤ (frame : ℚ) / (fps : ℚ) - bs.2 then
    bs.1.animations.map (fun a => (a, 1))
  else bs.1.get_active_animations ((frame : ℚ) / (fps : ℚ) - bs.2)

/-- Spec-side form of `Timeline.get_active_animations`: concatenation of the
per-block contributions in block order. -/
def timelineActiveSpec (tl : Timeline) (frame : ℤ) : List (Animation × ℚ) :=
  tl.blocks.flatMap (timelineContribSpec tl.fps frame)

/-- Unfolding lemma: `vlerp` at 0 returns the start point. -/
lemma vlerp_zero (s e : ℚ × ℚ) : vlerp s e 0 = s := by
  simp [vlerp]

/-- Unfolding lemma: `vlerp` at 1 returns the end point. -/
lemma vlerp_one (s e : ℚ × ℚ) : vlerp s e 1 = e := by
  simp [vlerp]

/-- Scalar lerp at 0. -/
lemma lerp_zero (s e : ℚ) : s + 0 * (e - s) = s := by ring

/-- Scalar lerp at 1. -/
lemma lerp_one (s e : ℚ) : s + 1 * (e - s) = e := by ring

/-- Every pair produced by the sequential loop carries an animation from the
list it walks. -/
lemma seqActive_fst_mem (anims : List Animation) (d time : ℚ) (i : ℕ)
    (a : Animation) (p : ℚ) (h : (a, p) ∈ seqActive anims d time i) :
    a ∈ anims := by
  induction anims generalizing i with
  | nil => simp [seqActive] at h
  | cons x rest ih =>
    rw [seqActive, List.mem_append] at h
    rcases h with h | h
    · split at h
      · simp at h
        simp [h.1]
      · split at h
        · simp at h
          simp [h.1]
        · simp at h
    · exact List.mem_cons_of_mem _ (ih (i + 1) h)

/-- If the time is at or past every slice of the remaining animations, the
sequential loop reports each of them at progress 1. -/
lemma seqActive_all_done (anims : List Animation) (d time : ℚ) (i : ℕ)
    (hd : 0 ≤ d) (ht : ((i + anims.length : ℕ) : ℚ) * d ≤ time) :
    seqActive anims d time i = anims.map (fun a => (a, 1)) := by
  induction anims generalizing i with
  | nil => rfl
  | cons x rest ih =>
    have hend : ((i : ℚ) + 1) * d ≤ time := by
      refine le_trans ?_ ht
      have hle : ((i : ℚ) + 1) ≤ ((i + (rest.length + 1) : ℕ) : ℚ) := by
        push_cast
        linarith [Nat.cast_nonneg (α := ℚ) rest.length]
      exact mul_le_mul_of_nonneg_right hle hd
    rw [seqActive]
    have h1 : ¬ ((i : ℚ) * d ≤ time ∧ time < (i : ℚ) * d + d) := by
      rintro ⟨-, hlt⟩
      nlinarith
    rw [if_neg h1, if_pos (by nlinarith : (i : ℚ) * d + d ≤ time)]
    have ht2 : (((i + 1) + rest.length : ℕ) : ℚ) * d ≤ time := by
      have : ((i + 1) + rest.length : ℕ) = (i + (rest.length + 1) : ℕ) := by omega
      rw [this]
      simpa using ht
    rw [ih (i + 1) ht2]
    rfl

/-- An animation whose slice contains the time is reported with the slice's
linear progress. -/
lemma seqActive_mem_active (anims : List Animation) (d time : ℚ) (base : ℕ)
    (j : ℕ) (hj : j < anims.length)
    (hlo : ((base + j : ℕ) : ℚ) * d ≤ time)
    (hhi : time < (((base + j : ℕ) : ℚ) + 1) * d) :
    (anims.get ⟨j, hj⟩, (time - ((base + j : ℕ) : ℚ) * d) / d) ∈
      seqActive anims d time base := by
  induction anims generalizing base j with
  | nil => exact absurd hj (by simp)
  | cons x rest ih =>
    rw [seqActive, List.mem_append]
    cases j with
    | zero =>
      left
      have hlo0 : (base : ℚ) * d ≤ time := by simpa using hlo
      have hhi0 : time < (base : ℚ) * d + d := by
        have := hhi
        push_cast at this ⊢
        nlinarith
      rw [if_pos ⟨hlo0, hhi0⟩]
      simp
    | succ j2 =>
      right
      have hj2 : j2 < rest.length := by simpa using Nat.lt_of_succ_lt_succ hj
      have hcast : ((base + 1) + j2 : ℕ) = (base + (j2 + 1) : ℕ) := by omega
      have hm := ih (base + 1) j2 hj2 (by rw [hcast]; exact hlo) (by rw [hcast]; exact hhi)
      simpa [hcast] using hm

/-- An animation whose slice has fully elapsed is reported at progress 1. -/
lemma seqActive_mem_done (anims : List Animation) (d time : ℚ) (base : ℕ)
    (j : ℕ) (hj : j < anims.length)
    (hdone : (((base + j : ℕ) : ℚ) + 1) * d ≤ time) :
    (anims.get ⟨j, hj⟩, 1) ∈ seqActive anims d time base := by
  induction anims generalizing base j with
  | nil => exact absurd hj (by simp)
  | cons x rest ih =>
    rw [seqActive, List.mem_append]
    cases j with
    | zero =>
      left
      have hend : (base : ℚ) * d + d ≤ time := by
        have := hdone
        push_cast at this ⊢
        nlinarith
      have h1 : ¬ ((base : ℚ) * d ≤ time ∧ time < (base : ℚ) * d + d) := by
        rintro ⟨-, hlt⟩
        nlinarith
      rw [if_neg h1, if_pos hend]
      simp
    | succ j2 =>
      right
      have hj2 : j2 < rest.length := by simpa using Nat.lt_of_succ_lt_succ hj
      have hcast : ((base + 1) + j2 : ℕ) = (base + (j2 + 1) : ℕ) := by omega
      have hm := ih (base + 1) j2 hj2 (by rw [hcast]; exact hdone)
      simpa [hcast] using hm

/-- An animation that occurs at exactly one index, whose slice has not yet
started, appears nowhere in the sequential loop's output. -/
lemma seqActive_not_mem_future (anims : List Animation) (d time : ℚ) (base : ℕ)
    (j : ℕ) (hj : j < anims.length) (hd : 0 < d)
    (hfuture : time < ((base + j : ℕ) : ℚ) * d)
    (huniq : ∀ (j2 : ℕ) (hj2 : j2 < anims.length),
      anims.get ⟨j2, hj2⟩ = anims.get ⟨j, hj⟩ → j2 = j)
    (p : ℚ) :
    (anims.get ⟨j, hj⟩, p) ∉ seqActive anims d time base := by
  induction anims generalizing base j with
  | nil => exact absurd hj (by simp)
  | cons x rest ih =>
    intro hmem
    rw [seqActive, List.mem_append] at hmem
    cases j with
    | zero =>
      have hfut0 : time < (base : ℚ) * d := by simpa using hfuture
      rcases hmem with hmem | hmem
      · have h1 : ¬ ((base : ℚ) * d ≤ time ∧ time < (base : ℚ) * d + d) := by
          rintro ⟨hle, -⟩
          linarith
        have h2 : ¬ ((base : ℚ) * d + d ≤ time) := by nlinarith
        rw [if_neg h1, if_neg h2] at hmem
        simp at hmem
      · have hxrest : x ∈ rest := by
          have := seqActive_fst_mem rest d time (base + 1) _ _ hmem
          simpa using this
        rcases List.get_of_mem hxrest with ⟨k, hk⟩
        have : (k.val + 1 : ℕ) = 0 := by
          refine huniq (k.val + 1) (by simp) ?_
          simpa using hk
        omega
    | succ j2 =>
      have hj2 : j2 < rest.length := by simpa using Nat.lt_of_succ_lt_succ hj
      rcases hmem with hmem | hmem
      · have hx : (x :: rest).get ⟨j2 + 1, hj⟩ = x := by
          by_cases hA : (base : ℚ) * d ≤ time ∧ time < (base : ℚ) * d + d
          · rw [if_pos hA, List.mem_singleton, Prod.mk.injEq] at hmem
            exact hmem.1
          · rw [if_neg hA] at hmem
            by_cases hB : (base : ℚ) * d + d ≤ time
            · rw [if_pos hB, List.mem_singleton, Prod.mk.injEq] at hmem
              exact hmem.1
            · rw [if_neg hB] at hmem
              simp at hmem
        have : (0 : ℕ) = j2 + 1 := huniq 0 (by simp) (by simpa using hx.symm)
        omega
      · have hcast : ((base + 1) + j2 : ℕ) = (base + (j2 + 1) : ℕ) := by omega
        refine ih (base + 1) j2 hj2 (by rw [hcast]; exact hfuture) ?_ ?_
        · intro k hk hkeq
          have := huniq (k + 1) (by simpa using Nat.succ_lt_succ hk) (by simpa using hkeq)
          omega
        · simpa using hmem

/-- Folding the timeline's per-block step from any accumulator concatenates
the per-block contributions after it. -/
lemma timeline_fold_eq_flatMap (fps frame : ℤ) (blocks : List (AnimationBlock × ℚ))
    (acc : List (Animation × ℚ)) :
    blocks.foldl
      (fun active bs =>
        let block_time := (frame : ℚ) / (fps : ℚ) - bs.2
        if block_time < 0 then active
        else if bs.1.duration ≤ block_time then
          active ++ bs.1.animations.map (fun a => (a, 1))
        else active ++ bs.1.get_active_animations block_time)
      acc
    = acc ++ blocks.flatMap (timelineContribSpec fps frame) := by
  induction blocks generalizing acc with
  | nil => simp
  | cons bs rest ih =>
    rw [List.foldl_cons, ih, List.flatMap_cons]
    have hstep :
        (let block_time := (frame : ℚ) / (fps : ℚ) - bs.2
         if block_time < 0 then acc
         else if bs.1.duration ≤ block_time then
           acc ++ bs.1.animations.map (fun a => (a, 1))
         else acc ++ bs.1.get_active_animations block_time)
        = acc ++ timelineContribSpec fps frame bs := by
      show (if (frame : ℚ) / (fps : ℚ) - bs.2 < 0 then acc
            else if bs.1.duration ≤ (frame : ℚ) / (fps : ℚ) - bs.2 then
              acc ++ bs.1.animations.map (fun a => (a, 1))
            else acc ++ bs.1.get_active_animations ((frame : ℚ) / (fps : ℚ) - bs.2))
          = acc ++ timelineContribSpec fps frame bs
      unfold timelineContribSpec
      by_cases h1 : (frame : ℚ) / (fps : ℚ) - bs.2 < 0
      · rw [if_pos h1, if_pos (show bs.2 > (frame : ℚ) / (fps : ℚ) from sub_neg.mp h1)]
        simp
      · rw [if_neg h1,
          if_neg (show ¬ bs.2 > (frame : ℚ) / (fps : ℚ) from fun hgt => h1 (sub_neg.mpr hgt))]
        by_cases h2 : bs.1.duration ≤ (frame : ℚ) / (fps : ℚ) - bs.2
        · rw [if_pos h2, if_pos h2]
        · rw [if_neg h2, if_neg h2]
    rw [hstep, List.append_assoc]

/-- The timeline invariant of spec section 3: each block's start time is the
sum of the durations of the blocks before it, and the total duration is the
sum of all block durations. -/
def startsAligned (tl : Timeline) : Prop :=
  (∀ i : Fin tl.blocks.length,
    (tl.blocks.get i).2 =
      ((tl.blocks.take i.val).map (fun bs => bs.1.duration)).sum) ∧
  tl.total_duration = (tl.blocks.map (fun bs => bs.1.duration)).sum

/-- A fresh timeline satisfies the start-time invariant. -/
lemma startsAligned_init (fps : ℤ) : startsAligned (Timeline.init fps) := by
  constructor
  · intro i
    exact absurd i.isLt (by simp [Timeline.init])
  · simp [Timeline.init]

/-- The last slot of an appended singleton. -/
lemma get_append_singleton_last {α : Type} (l : List α) (x : α)
    (h : l.length < (l ++ [x]).length) : (l ++ [x]).get ⟨l.length, h⟩ = x := by
  induction l with
  | nil => rfl
  | cons y ys ih => exact ih (by simp)

/-- `add_block` preserves the start-time invariant. -/
lemma startsAligned_add_block (tl : Timeline) (a : List Animation) (dur : ℚ)
    (s : Bool) (h : startsAligned tl) : startsAligned (tl.add_block a dur s) := by
  obtain ⟨h1, h2⟩ := h
  constructor
  · intro i
    have hil : i.val < (tl.blocks ++
        [(AnimationBlock.init a dur s, tl.total_duration)]).length := i.isLt
    show ((tl.blocks ++ [(AnimationBlock.init a dur s, tl.total_duration)]).get
        ⟨i.val, hil⟩).2 =
      (((tl.blocks ++ [(AnimationBlock.init a dur s, tl.total_duration)]).take
        i.val).map (fun bs => bs.1.duration)).sum
    rcases Nat.lt_or_ge i.val tl.blocks.length with hi | hi
    · have hget : (tl.blocks ++ [(AnimationBlock.init a dur s, tl.total_duration)]).get
          ⟨i.val, hil⟩ = tl.blocks.get ⟨i.val, hi⟩ := by
        rw [List.get_eq_getElem, List.get_eq_getElem]
        exact List.getElem_append_left hi
      have htake : (tl.blocks ++ [(AnimationBlock.init a dur s, tl.total_duration)]).take
          i.val = tl.blocks.take i.val := by
        rw [List.take_append_eq_append_take, Nat.sub_eq_zero_of_le (le_of_lt hi),
          List.take_zero, List.append_nil]
      rw [hget, htake]
      exact h1 ⟨i.val, hi⟩
    · have hv : i.val = tl.blocks.length := by
        have hl := hil
        simp only [List.length_append, List.length_singleton] at hl
        omega
      have hfin : (⟨i.val, hil⟩ : Fin (tl.blocks ++
          [(AnimationBlock.init a dur s, tl.total_duration)]).length) =
          ⟨tl.blocks.length, by simp⟩ := Fin.mk_eq_mk.mpr hv
      rw [hfin, get_append_singleton_last, hv, List.take_append_eq_append_take,
        Nat.sub_self, List.take_zero, List.append_nil, List.take_length]
      exact h2
  · show tl.total_duration + dur =
      ((tl.blocks ++ [(AnimationBlock.init a dur s, tl.total_duration)]).map
        (fun bs => bs.1.duration)).sum
    rw [List.map_append, List.sum_append, h2]
    simp [AnimationBlock.init]

/-- Every mutating operation preserves the start-time invariant. -/
lemma startsAligned_applyOp (tl : Timeline) (op : TimelineOp)
    (h : startsAligned tl) : startsAligned (tl.applyOp op) := by
  cases op with
  | add_block a d s => exact startsAligned_add_block tl a d s h
  | add_sequential a d => exact startsAligned_add_block tl a d true h
  | add_parallel a d => exact startsAligned_add_block tl a d false h
  | reset =>
    constructor
    · intro i
      exact absurd i.isLt (by simp [Timeline.applyOp, Timeline.reset])
    · simp [Timeline.applyOp, Timeline.reset]

/-- Any sequence of mutating operations preserves the start-time invariant. -/
lemma startsAligned_applyOps (tl : Timeline) (ops : List TimelineOp)
    (h : startsAligned tl) : startsAligned (tl.applyOps ops) := by
  induction ops generalizing tl with
  | nil => exact h
  | cons op rest ih => exact ih _ (startsAligned_applyOp tl op h)

/-- C9: for every concrete kind, the final snapshot is the initial snapshot
plus the kind's declared delta: Move's final position is the absolute target,
Rotate adds the angle to the initial rotation, Scale multiplies the initial
scale factor by the target scale, FadeIn fixes opacity 1.0 and FadeOut fixes
opacity 0.0. -/
theorem capture_final_is_initial_plus_delta (init : Snapshot) (tgt : ℚ × ℚ)
    (fac ang r0 c0 : ℚ) :
    (captureFinalState (.move tgt) init = some (posSnap tgt)) ∧
    (init.rotation = some r0 →
      captureFinalState (.rotate ang) init = some (rotSnap (r0 + ang))) ∧
    (init.scale_factor = some c0 →
      captureFinalState (.scale fac) init = some (scaleSnap (c0 * fac))) ∧
    (captureFinalState .fadeIn init = some (opSnap 1)) ∧
    (captureFinalState .fadeOut init = some (opSnap 0)) := by
  refine ⟨rfl, ?_, ?_, rfl, rfl⟩ <;> intro h <;> simp [captureFinalState, h]

/-- Witness for C9 at a concrete initial snapshot. -/
theorem capture_final_is_initial_plus_delta_witness :
    (captureFinalState (.rotate 9) ⟨none, some 2, some 5, none⟩ =
      some (rotSnap (2 + 9))) ∧
    (captureFinalState (.scale 7) ⟨none, some 2, some 5, none⟩ =
      some (scaleSnap (5 * 7))) :=
  ⟨(capture_final_is_initial_plus_delta ⟨none, some 2, some 5, none⟩ (3, 4) 7 9 2 5).2.1 rfl,
   (capture_final_is_initial_plus_delta ⟨none, some 2, some 5, none⟩ (3, 4) 7 9 2 5).2.2.1 rfl⟩

/-- C2 (code bug): `AnimationBuilder.build` is a placeholder that returns the
empty list even for a nonempty queue, contradicting its own docstring and the
spec's builder contract. -/
theorem build_ignores_queue :
    (AnimationBuilder.move_to ⟨[]⟩ (1, 0)).pending_operations.length = 1 ∧
    (AnimationBuilder.move_to ⟨[]⟩ (1, 0)).build 1 none = [] :=
  ⟨rfl, rfl⟩

/-- C7: `total_frames` equals `floor(total_duration * fps) + 1` whenever the
product is nonnegative, and equals 61 for fps 30 and total duration 2. -/
theorem total_frames_floor_plus_one (tl : Timeline)
    (h : 0 ≤ tl.total_duration * (tl.fps : ℚ)) :
    tl.total_frames = ⌊tl.total_duration * (tl.fps : ℚ)⌋ + 1 ∧
    (tl.fps = 30 → tl.total_duration = 2 → tl.total_frames = 61) := by
  constructor
  · unfold Timeline.total_frames pyInt
    rw [if_pos h]
  · intro h30 h2
    unfold Timeline.total_frames pyInt
    rw [h30, h2]
    norm_num

/-- Witness for C7 on a timeline with fps 30 and total duration 2. -/
theorem total_frames_floor_plus_one_witness :
    Timeline.total_frames ⟨30, [], 2⟩ = ⌊(2 : ℚ) * ((30 : ℤ) : ℚ)⌋ + 1 ∧
    Timeline.total_frames ⟨30, [], 2⟩ = 61 := by
  have h := total_frames_floor_plus_one ⟨30, [], 2⟩ (by norm_num)
  exact ⟨h.1, h.2 rfl rfl⟩

/-- C8: starting from a fresh timeline, after any sequence of `add_block`,
`add_sequential`, `add_parallel` and `reset` operations, block i's start time
is the sum of the durations of blocks 0..i-1 and `total_duration` is the sum
of all block durations; moreover every operation either appends one block at
the end or clears the block list. -/
theorem timeline_blocks_contiguous (fps : ℤ) (ops : List TimelineOp) :
    startsAligned (Timeline.applyOps (Timeline.init fps) ops) ∧
    ∀ (tl : Timeline) (op : TimelineOp),
      (∃ entry, (tl.applyOp op).blocks = tl.blocks ++ [entry]) ∨
      ((tl.applyOp op).blocks = [] ∧ (tl.applyOp op).total_duration = 0) := by
  constructor
  · exact startsAligned_applyOps _ ops (startsAligned_init fps)
  · intro tl op
    cases op with
    | add_block a d s => exact Or.inl ⟨(AnimationBlock.init a d s, tl.total_duration), rfl⟩
    | add_sequential a d =>
      exact Or.inl ⟨(AnimationBlock.init a d true, tl.total_duration), rfl⟩
    | add_parallel a d =>
      exact Or.inl ⟨(AnimationBlock.init a d false, tl.total_duration), rfl⟩
    | reset => exact Or.inr ⟨rfl, rfl⟩

/-- C6: `Timeline.get_active_animations` computes `time = frame / fps` and
concatenates, in block order, nothing for an unstarted block, all animations
at progress 1.0 for a fully elapsed block, and the block's own active list
otherwise. -/
theorem timeline_active_matches_spec (tl : Timeline) (frame : ℤ)
    (_hf : 0 ≤ frame) :
    tl.get_active_animations frame = timelineActiveSpec tl frame := by
  have h := timeline_fold_eq_flatMap tl.fps frame tl.blocks []
  unfold Timeline.get_active_animations timelineActiveSpec
  rw [h]
  rfl

/-- A concrete two-block timeline used by witnesses: a parallel block of one
animation, then a sequential block of two. -/
def tlW : Timeline :=
  ⟨1, [(AnimationBlock.init [Animation.mk 0 2] 1 false, 0),
       (AnimationBlock.init [Animation.mk 1 1, Animation.mk 2 1] 2 true, 1)], 3⟩

/-- Witness for C6 on a concrete two-block timeline at frame 2. -/
theorem timeline_active_matches_spec_witness :
    Timeline.get_active_animations tlW 2 = timelineActiveSpec tlW 2 ∧
    Timeline.get_active_animations tlW 2 =
      [(Animation.mk 0 2, 1), (Animation.mk 1 1, 1), (Animation.mk 2 1, 0)] :=
  ⟨timeline_active_matches_spec tlW 2 (by decide), by
    norm_num [tlW, Timeline.get_active_animations, AnimationBlock.get_active_animations,
      AnimationBlock.init, seqActive]⟩

/-- C3 (counterexample): a parallel block of duration 1 holding one animation
of duration 5, queried at localTime 2 ≥ 1, reports that animation at progress
2/5, not 1.0. -/
theorem block_end_not_all_one_counterexample :
    (AnimationBlock.init [Animation.mk 0 5] 1 false).get_active_animations 2 =
      [(Animation.mk 0 5, 2 / 5)] ∧
    (2 : ℚ) / 5 ≠ 1 ∧ (1 : ℚ) ≤ 2 := by
  refine ⟨by rfl, by norm_num, by norm_num⟩

/-- C3 (amended): at localTime ≥ duration a sequential block reports every
animation at exactly 1.0, while a parallel block reports each animation at
`localTime / duration` capped at 1.0 — 1.0 only when its own duration is at
most the localTime; the all-at-1.0 guarantee for elapsed blocks is enforced
by `Timeline.get_active_animations`, which maps every animation of a block
with blockTime ≥ block.duration to 1.0 without consulting the block. -/
theorem block_end_amended (anims : List Animation) (D t : ℚ)
    (hD : 0 ≤ D) (ht : D ≤ t) :
    ((AnimationBlock.init anims D true).get_active_animations t =
        anims.map (fun a => (a, 1))) ∧
    ((AnimationBlock.init anims D false).get_active_animations t =
        anims.map (fun a =>
          if t < a.duration then (a, t / a.duration) else (a, 1))) ∧
    (∀ a ∈ anims, a.duration ≤ t →
        (a, 1) ∈ (AnimationBlock.init anims D false).get_active_animations t) ∧
    (∀ (tl : Timeline) (frame : ℤ),
        tl.get_active_animations frame = timelineActiveSpec tl frame) ∧
    (∀ (fps frame : ℤ) (bs : AnimationBlock × ℚ),
        bs.2 ≤ (frame : ℚ) / (fps : ℚ) →
        bs.1.duration ≤ (frame : ℚ) / (fps : ℚ) - bs.2 →
        timelineContribSpec fps frame bs = bs.1.animations.map (fun a => (a, 1))) := by
  refine ⟨?_, by rfl, ?_, ?_, ?_⟩
  · rcases Nat.eq_zero_or_pos anims.length with h0 | hpos
    · have hnil : anims = [] := List.length_eq_zero.mp h0
      subst hnil
      rfl
    · have hget : (AnimationBlock.init anims D true).get_active_animations t =
          seqActive anims (D / (anims.length : ℚ)) t 0 := by
        simp [AnimationBlock.get_active_animations, AnimationBlock.init, hpos]
      rw [hget]
      have hcast : (0 : ℚ) < (anims.length : ℚ) := by exact_mod_cast hpos
      apply seqActive_all_done
      · exact div_nonneg hD hcast.le
      · have hmul : ((anims.length : ℚ)) * (D / (anims.length : ℚ)) = D := by
          field_simp
        have hzero : ((0 + anims.length : ℕ) : ℚ) = (anims.length : ℚ) := by push_cast; ring
        rw [hzero, hmul]
        exact ht
  · intro a ha hdur
    have hval : (if t < a.duration then (a, t / a.duration) else (a, (1 : ℚ))) = (a, 1) :=
      if_neg (not_lt.mpr hdur)
    have hmem : (if t < a.duration then (a, t / a.duration) else (a, (1 : ℚ))) ∈
        (AnimationBlock.init anims D false).get_active_animations t :=
      List.mem_map_of_mem _ ha
    rw [hval] at hmem
    exact hmem
  · intro tl frame
    have h := timeline_fold_eq_flatMap tl.fps frame tl.blocks []
    unfold Timeline.get_active_animations timelineActiveSpec
    rw [h]
    rfl
  · intro fps frame bs hstart hdone
    unfold timelineContribSpec
    rw [if_neg (not_lt.mpr hstart), if_pos hdone]

/-- Witness for C3's amended statement on a concrete block at localTime 2. -/
theorem block_end_amended_witness :
    ((AnimationBlock.init [Animation.mk 0 5, Animation.mk 1 1] 1 true).get_active_animations 2 =
      [Animation.mk 0 5, Animation.mk 1 1].map (fun a => (a, 1))) ∧
    (Animation.mk 1 1, (1 : ℚ)) ∈
      (AnimationBlock.init [Animation.mk 0 5, Animation.mk 1 1] 1 false).get_active_animations 2 := by
  have h := block_end_amended [Animation.mk 0 5, Animation.mk 1 1] 1 2 (by norm_num) (by norm_num)
  exact ⟨h.1, h.2.2.1 (Animation.mk 1 1) (by simp) (by norm_num)⟩

/-- C5: a parallel block at localTime in [0, duration) reports each animation
at `min(localTime / duration, 1)`, with a zero-duration animation immediately
at 1.0, and the division is only taken when the divisor is nonzero. -/
theorem parallel_progress_min (anims : List Animation) (D t : ℚ)
    (ht0 : 0 ≤ t) (_htD : t < D)
    (hdur : ∀ a ∈ anims, 0 ≤ a.duration) :
    ((AnimationBlock.init anims D false).get_active_animations t =
        anims.map (fun a =>
          (a, if a.duration = 0 then 1 else min (t / a.duration) 1))) ∧
    (∀ a ∈ anims, a.duration = 0 →
        (a, 1) ∈ (AnimationBlock.init anims D false).get_active_animations t) ∧
    (∀ a ∈ anims, t < a.duration → a.duration ≠ 0) := by
  have hmap : ∀ a ∈ anims,
      (if t < a.duration then (a, t / a.duration) else (a, (1 : ℚ))) =
      (a, if a.duration = 0 then 1 else min (t / a.duration) 1) := by
    intro a ha
    rcases eq_or_lt_of_le (hdur a ha) with hz | hpos
    · rw [if_neg (by rw [← hz]; exact not_lt.mpr ht0), if_pos hz.symm]
    · rw [if_neg hpos.ne.symm]
      by_cases hlt : t < a.duration
      · rw [if_pos hlt, min_eq_left ((div_le_one hpos).mpr hlt.le)]
      · rw [if_neg hlt, min_eq_right ((one_le_div hpos).mpr (not_lt.mp hlt))]
  refine ⟨?_, ?_, ?_⟩
  · show anims.map (fun a => if t < a.duration then (a, t / a.duration) else (a, (1 : ℚ))) = _
    exact List.map_congr_left hmap
  · intro a ha hz
    have hval : (if t < a.duration then (a, t / a.duration) else (a, (1 : ℚ))) = (a, 1) := by
      rw [if_neg (by rw [hz]; exact not_lt.mpr ht0)]
    have hmem : (if t < a.duration then (a, t / a.duration) else (a, (1 : ℚ))) ∈
        (AnimationBlock.init anims D false).get_active_animations t :=
      List.mem_map_of_mem _ ha
    rw [hval] at hmem
    exact hmem
  · intro a ha hlt
    exact (lt_of_le_of_lt ht0 hlt).ne.symm

/-- Witness for C5 on a parallel block with a zero-duration animation. -/
theorem parallel_progress_min_witness :
    ((AnimationBlock.init [Animation.mk 0 0, Animation.mk 1 4, Animation.mk 2 1] 3
        false).get_active_animations 2 =
      [Animation.mk 0 0, Animation.mk 1 4, Animation.mk 2 1].map (fun a =>
        (a, if a.duration = 0 then 1 else min ((2 : ℚ) / a.duration) 1))) ∧
    (Animation.mk 0 0, (1 : ℚ)) ∈
      (AnimationBlock.init [Animation.mk 0 0, Animation.mk 1 4, Animation.mk 2 1] 3
        false).get_active_animations 2 := by
  have h := parallel_progress_min [Animation.mk 0 0, Animation.mk 1 4, Animation.mk 2 1] 3 2
    (by norm_num) (by norm_num) (by intro a ha; fin_cases ha <;> norm_num)
  exact ⟨h.1, h.2.1 (Animation.mk 0 0) (by simp) rfl⟩

/-- C4: in a sequential block of N ≥ 1 animations with total duration D > 0
and slice width d = D / N, at any localTime t in [0, D) the animation at
index i is reported with progress (t − i·d) / d whenever t lies in its slice
[i·d, (i+1)·d) — a value in [0, 1) strictly increasing as t sweeps the
slice — and every animation whose slice end is at or before t is reported at
progress exactly 1.0; an empty sequential block yields the empty list. -/
theorem sequential_slice_progress (anims : List Animation) (D t d : ℚ)
    (hne : anims ≠ []) (hD : 0 < D) (_ht0 : 0 ≤ t) (_htD : t < D)
    (hd : d = D / (anims.length : ℚ)) :
    (∀ (i : ℕ) (hi : i < anims.length),
      ((i : ℚ) * d ≤ t → t < ((i : ℚ) + 1) * d →
        ((anims.get ⟨i, hi⟩, (t - (i : ℚ) * d) / d) ∈
            (AnimationBlock.init anims D true).get_active_animations t ∧
         0 ≤ (t - (i : ℚ) * d) / d ∧ (t - (i : ℚ) * d) / d < 1 ∧
         (∀ t2, t < t2 → t2 < ((i : ℚ) + 1) * d →
            (t - (i : ℚ) * d) / d < (t2 - (i : ℚ) * d) / d))) ∧
      (((i : ℚ) + 1) * d ≤ t →
        (anims.get ⟨i, hi⟩, 1) ∈
          (AnimationBlock.init anims D true).get_active_animations t)) ∧
    (∀ s, (AnimationBlock.init ([] : List Animation) D true).get_active_animations s
      = []) := by
  have hpos : 0 < anims.length := List.length_pos.mpr hne
  have hcast : (0 : ℚ) < (anims.length : ℚ) := by exact_mod_cast hpos
  have hdpos : 0 < d := by rw [hd]; exact div_pos hD hcast
  have hget : (AnimationBlock.init anims D true).get_active_animations t =
      seqActive anims d t 0 := by
    rw [hd]
    simp [AnimationBlock.get_active_animations, AnimationBlock.init, hpos]
  refine ⟨?_, fun s => rfl⟩
  intro i hi
  have hzero : ((0 + i : ℕ) : ℚ) = (i : ℚ) := by push_cast; ring
  constructor
  · intro hlo hhi
    refine ⟨?_, ?_, ?_, ?_⟩
    · rw [hget]
      have hm := seqActive_mem_active anims d t 0 i hi (by rw [hzero]; exact hlo)
        (by rw [hzero]; exact hhi)
      rw [hzero] at hm
      exact hm
    · exact div_nonneg (by linarith) hdpos.le
    · rw [div_lt_one hdpos]
      nlinarith
    · intro t2 h12 h2hi
      rw [div_lt_div_iff_of_pos_right hdpos]
      linarith
  · intro hdone
    rw [hget]
    have hm := seqActive_mem_done anims d t 0 i hi (by rw [hzero]; exact hdone)
    exact hm

/-- Witness for C4 on a two-animation sequential block at a time inside the
first slice. -/
theorem sequential_slice_progress_witness :
    ((Animation.mk 0 7, ((1 : ℚ) / 2 - ((0 : ℕ) : ℚ) * 1) / 1) ∈
      (AnimationBlock.init [Animation.mk 0 7, Animation.mk 1 7] 2
        true).get_active_animations (1 / 2)) ∧
    (0 : ℚ) ≤ ((1 : ℚ) / 2 - ((0 : ℕ) : ℚ) * 1) / 1 ∧
    ((1 : ℚ) / 2 - ((0 : ℕ) : ℚ) * 1) / 1 < 1 := by
  have h := (sequential_slice_progress [Animation.mk 0 7, Animation.mk 1 7] 2 (1 / 2) 1
    (by simp) (by norm_num) (by norm_num) (by norm_num) (by norm_num)).1 0 (by norm_num)
  have h2 := h.1 (by norm_num) (by norm_num)
  exact ⟨h2.1, h2.2.1, h2.2.2.1⟩

/-- C10: in a sequential block, an animation occurring at exactly one index
whose slice has not yet started (localTime strictly below i·d) is absent from
the result at every progress value — the code resolves the spec's open
question in favor of omission. -/
theorem sequential_future_slice_omitted (anims : List Animation) (D t : ℚ)
    (hne : anims ≠ []) (hD : 0 < D) (i : ℕ) (hi : i < anims.length)
    (hfuture : t < (i : ℚ) * (D / (anims.length : ℚ)))
    (huniq : ∀ (j : ℕ) (hj : j < anims.length),
      anims.get ⟨j, hj⟩ = anims.get ⟨i, hi⟩ → j = i)
    (p : ℚ) :
    (anims.get ⟨i, hi⟩, p) ∉
      (AnimationBlock.init anims D true).get_active_animations t := by
  have hpos : 0 < anims.length := List.length_pos.mpr hne
  have hcast : (0 : ℚ) < (anims.length : ℚ) := by exact_mod_cast hpos
  have hget : (AnimationBlock.init anims D true).get_active_animations t =
      seqActive anims (D / (anims.length : ℚ)) t 0 := by
    simp [AnimationBlock.get_active_animations, AnimationBlock.init, hpos]
  rw [hget]
  refine seqActive_not_mem_future anims _ t 0 i hi (div_pos hD hcast) ?_ huniq p
  have hzero : ((0 + i : ℕ) : ℚ) = (i : ℚ) := by push_cast; ring
  rw [hzero]
  exact hfuture

/-- Witness for C10: the second animation of a two-animation sequential block
is absent at a time inside the first slice. -/
theorem sequential_future_slice_omitted_witness :
    (Animation.mk 1 1, (0 : ℚ)) ∉
      (AnimationBlock.init [Animation.mk 0 1, Animation.mk 1 1] 2
        true).get_active_animations (1 / 2) := by
  refine sequential_future_slice_omitted [Animation.mk 0 1, Animation.mk 1 1] 2 (1 / 2)
    (by simp) (by norm_num) 1 (by norm_num) (by norm_num) ?_ 0
  intro j hj hEq
  have hj2 : j < 2 := by simpa using hj
  interval_cases j
  · exact absurd hEq (by simp)
  · rfl

/-- C1 (counterexample): FadeIn's interpolation ignores the captured initial
opacity. With a target whose opacity is 1/2, the captured initial snapshot
records opacity 1/2, yet evaluating at progress 0.0 (identity easing) writes
opacity 0, so the written values do not equal the initial snapshot. -/
theorem fade_in_zero_not_initial_counterexample :
    captureInitial .fadeIn ⟨(0, 0), 0, 1, 1 / 2⟩ = opSnap (1 / 2) ∧
    captureFinalState .fadeIn (opSnap (1 / 2)) = some (opSnap 1) ∧
    evaluate .fadeIn id (opSnap (1 / 2)) (opSnap 1) 0 ⟨(0, 0), 0, 1, 1 / 2⟩ =
      some ⟨(0, 0), 0, 1, 0⟩ ∧
    agrees ⟨(0, 0), 0, 1, 0⟩ (opSnap (1 / 2)) = false := by
  refine ⟨rfl, rfl, rfl, ?_⟩
  norm_num [agrees, opSnap]

/-- C1 (amended): with any easing fixing the endpoints (f 0 = 0, f 1 = 1),
every kind's evaluation at progress 1.0 writes values equal to the final
snapshot; Move, Scale and Rotate at progress 0.0 write values equal to the
initial snapshot, while FadeIn writes opacity 0.0 and FadeOut writes opacity
1.0 at progress 0.0 regardless of the captured initial opacity. -/
theorem evaluate_endpoints_amended (k : AnimKind) (m : MState) (f : ℚ → ℚ)
    (h0 : f 0 = 0) (h1 : f 1 = 1) :
    ∃ fin, captureFinalState k (captureInitial k m) = some fin ∧
      (∃ m1, evaluate k f (captureInitial k m) fin 1 m = some m1 ∧
        agrees m1 fin = true) ∧
      (k.isFade = false →
        ∃ m0, evaluate k f (captureInitial k m) fin 0 m = some m0 ∧
          agrees m0 (captureInitial k m) = true) ∧
      (k = .fadeIn →
        evaluate k f (captureInitial k m) fin 0 m = some { m with opacity := 0 }) ∧
      (k = .fadeOut →
        evaluate k f (captureInitial k m) fin 0 m = some { m with opacity := 1 }) := by
  cases k with
  | move tgt =>
    refine ⟨posSnap tgt, rfl, ?_, ?_, ?_, ?_⟩
    · refine ⟨{ m with position := vlerp m.position tgt (f 1) }, rfl, ?_⟩
      rw [h1, vlerp_one]
      simp [agrees, posSnap]
    · intro _
      refine ⟨{ m with position := vlerp m.position tgt (f 0) }, rfl, ?_⟩
      rw [h0, vlerp_zero]
      simp [agrees, captureInitial, posSnap]
    · intro h
      cases h
    · intro h
      cases h
  | scale fac =>
    refine ⟨scaleSnap (m.scale_factor * fac), rfl, ?_, ?_, ?_, ?_⟩
    · have hv : f 1 = 1 := h1
      refine ⟨_, rfl, ?_⟩
      rw [hv, lerp_one]
      simp [agrees, scaleSnap]
    · intro _
      refine ⟨_, rfl, ?_⟩
      rw [h0, lerp_zero]
      simp [agrees, captureInitial, scaleSnap]
    · intro h
      cases h
    · intro h
      cases h
  | rotate ang =>
    refine ⟨rotSnap (m.rotation + ang), rfl, ?_, ?_, ?_, ?_⟩
    · refine ⟨_, rfl, ?_⟩
      rw [h1, lerp_one]
      simp [agrees, rotSnap]
    · intro _
      refine ⟨_, rfl, ?_⟩
      rw [h0, lerp_zero]
      simp [agrees, captureInitial, rotSnap]
    · intro h
      cases h
    · intro h
      cases h
  | fadeIn =>
    refine ⟨opSnap 1, rfl, ?_, ?_, ?_, ?_⟩
    · refine ⟨{ m with opacity := f 1 }, rfl, ?_⟩
      rw [h1]
      simp [agrees, opSnap]
    · intro h
      simp [AnimKind.isFade] at h
    · intro _
      have hr : evaluate .fadeIn f (captureInitial .fadeIn m) (opSnap 1) 0 m =
          some { m with opacity := f 0 } := rfl
      rw [hr, h0]
    · intro h
      cases h
  | fadeOut =>
    refine ⟨opSnap 0, rfl, ?_, ?_, ?_, ?_⟩
    · refine ⟨{ m with opacity := 1 - f 1 }, rfl, ?_⟩
      rw [h1]
      simp [agrees, opSnap]
    · intro h
      simp [AnimKind.isFade] at h
    · intro h
      cases h
    · intro _
      have hr : evaluate .fadeOut f (captureInitial .fadeOut m) (opSnap 0) 0 m =
          some { m with opacity := 1 - f 0 } := rfl
      rw [hr, h0]
      norm_num

/-- Witness for C1's amended statement: a Rotate by 3 on a concrete target
with identity easing. -/
theorem evaluate_endpoints_amended_witness :
    id (0 : ℚ) = 0 ∧ id (1 : ℚ) = 1 ∧
    ∃ fin, captureFinalState (.rotate 3)
        (captureInitial (.rotate 3) ⟨(0, 0), 1, 1, 1⟩) = some fin ∧
      (∃ m1, evaluate (.rotate 3) id
          (captureInitial (.rotate 3) ⟨(0, 0), 1, 1, 1⟩) fin 1 ⟨(0, 0), 1, 1, 1⟩ =
          some m1 ∧ agrees m1 fin = true) ∧
      (AnimKind.isFade (.rotate 3) = false →
        ∃ m0, evaluate (.rotate 3) id
            (captureInitial (.rotate 3) ⟨(0, 0), 1, 1, 1⟩) fin 0 ⟨(0, 0), 1, 1, 1⟩ =
            some m0 ∧
          agrees m0 (captureInitial (.rotate 3) ⟨(0, 0), 1, 1, 1⟩) = true) ∧
      ((.rotate 3 : AnimKind) = .fadeIn →
        evaluate (.rotate 3) id
          (captureInitial (.rotate 3) ⟨(0, 0), 1, 1, 1⟩) fin 0 ⟨(0, 0), 1, 1, 1⟩ =
          some { MState.mk (0, 0) 1 1 1 with opacity := 0 }) ∧
      ((.rotate 3 : AnimKind) = .fadeOut →
        evaluate (.rotate 3) id
          (captureInitial (.rotate 3) ⟨(0, 0), 1, 1, 1⟩) fin 0 ⟨(0, 0), 1, 1, 1⟩ =
          some { MState.mk (0, 0) 1 1 1 with opacity := 1 }) :=
  ⟨rfl, rfl, evaluate_endpoints_amended (.rotate 3) ⟨(0, 0), 1, 1, 1⟩ id rfl rfl⟩
